import Mathlib

/-!
Verification of the DSBUS storage-engine core against its specification.

The development shallowly embeds the two subsystems of the repository:

* the copy-on-write trie of src/trie/cow_trie.hpp (`COWTrieNode`, `COWTrie`
  with `Put`, `Get`, `Remove`);
* the buffer-pool stack of src/buffer and src/disk (`LRUReplacer`,
  `DiskManager`, `BufferPoolManager`).

Modelling conventions:

* `std::map<char, shared_ptr<const COWTrieNode>>` and
  `std::unordered_map` are embedded as association lists; `alistFind`,
  `alistInsert` and `alistErase` mirror `find`, `operator[]` assignment and
  `erase(iterator)` (first-occurrence semantics; the C++ maps hold each key
  at most once, so this is exact).
* a `shared_ptr<T>` payload produced by `make_shared` carries an allocation
  identity; `Payload.id` models the pointer value, so payload equality in
  the model is pointer equality in the source.
* paths through `exit(0)`, a failing `assert`, or out-of-bounds reads
  (undefined behaviour) are modelled by returning `none` from the
  operation; a `some` result is a run in which the process survives.
-/

set_option autoImplicit false
set_option linter.unusedSectionVars false
set_option linter.unnecessarySimpa false

namespace DSBUS

universe u

/-! ## Association lists (embedding of std::map / std::unordered_map) -/

/-- First value bound to key `k`, as `map::find`. -/
def alistFind {κ : Type} {α : Type u} [DecidableEq κ] (k : κ) : List (κ × α) → Option α
  | [] => none
  | (k', v) :: rest => if k' = k then some v else alistFind k rest

/-- Bind `k` to `v`, replacing the existing binding in place if present,
as assignment through `map::operator[]`. -/
def alistInsert {κ : Type} {α : Type u} [DecidableEq κ] (k : κ) (v : α) :
    List (κ × α) → List (κ × α)
  | [] => [(k, v)]
  | (k', v') :: rest =>
    if k' = k then (k, v) :: rest else (k', v') :: alistInsert k v rest

/-- Drop the binding of `k` if present, as `map::erase(map::find(k))`. -/
def alistErase {κ : Type} {α : Type u} [DecidableEq κ] (k : κ) :
    List (κ × α) → List (κ × α)
  | [] => []
  | (k', v') :: rest => if k' = k then rest else (k', v') :: alistErase k rest

/-- Keys of an association list. -/
def alistKeys {κ : Type} {α : Type u} (l : List (κ × α)) : List κ :=
  l.map Prod.fst

section AListLemmas

variable {κ : Type} {α : Type u} [DecidableEq κ]

@[simp] theorem alistKeys_nil : alistKeys ([] : List (κ × α)) = [] := rfl

@[simp] theorem alistKeys_cons (k : κ) (v : α) (l : List (κ × α)) :
    alistKeys ((k, v) :: l) = k :: alistKeys l := rfl

theorem alistFind_insert_self (k : κ) (v : α) (l : List (κ × α)) :
    alistFind k (alistInsert k v l) = some v := by
  induction l with
  | nil => simp [alistInsert, alistFind]
  | cons hd tl ih =>
    obtain ⟨k', v'⟩ := hd
    by_cases h : k' = k <;> simp [alistInsert, alistFind, h, ih]

theorem alistFind_insert_ne (k k' : κ) (v : α) (l : List (κ × α)) (h : k' ≠ k) :
    alistFind k' (alistInsert k v l) = alistFind k' l := by
  have hk : k ≠ k' := Ne.symm h
  induction l with
  | nil => simp [alistInsert, alistFind, hk]
  | cons hd tl ih =>
    obtain ⟨k₀, v₀⟩ := hd
    by_cases h₀ : k₀ = k
    · subst h₀
      simp [alistInsert, alistFind, hk]
    · by_cases h₁ : k₀ = k'
      · subst h₁
        simp [alistInsert, alistFind, h₀]
      · simp [alistInsert, alistFind, h₀, h₁, ih]

theorem alistFind_erase_ne (k k' : κ) (l : List (κ × α)) (h : k' ≠ k) :
    alistFind k' (alistErase k l) = alistFind k' l := by
  have hk : k ≠ k' := Ne.symm h
  induction l with
  | nil => simp [alistErase]
  | cons hd tl ih =>
    obtain ⟨k₀, v₀⟩ := hd
    by_cases h₀ : k₀ = k
    · subst h₀
      simp [alistErase, alistFind, hk]
    · by_cases h₁ : k₀ = k'
      · subst h₁
        simp [alistErase, alistFind, h₀]
      · simp [alistErase, alistFind, h₀, h₁, ih]

theorem alistFind_eq_none (k : κ) (l : List (κ × α)) :
    alistFind k l = none ↔ k ∉ alistKeys l := by
  induction l with
  | nil => simp [alistFind]
  | cons hd tl ih =>
    obtain ⟨k₀, v₀⟩ := hd
    by_cases h₀ : k₀ = k
    · subst h₀
      simp [alistFind]
    · simp [alistFind, h₀, ih, Ne.symm h₀]

theorem alistFind_mem {k : κ} {v : α} {l : List (κ × α)}
    (h : alistFind k l = some v) : (k, v) ∈ l := by
  induction l with
  | nil => simp [alistFind] at h
  | cons hd tl ih =>
    obtain ⟨k₀, v₀⟩ := hd
    by_cases h₀ : k₀ = k
    · subst h₀
      simp [alistFind] at h
      subst h
      exact List.mem_cons_self _ _
    · simp [alistFind, h₀] at h
      exact List.mem_cons_of_mem _ (ih h)

theorem alistFind_erase_self_of_nodup (k : κ) (l : List (κ × α))
    (hnd : (alistKeys l).Nodup) : alistFind k (alistErase k l) = none := by
  induction l with
  | nil => simp [alistErase, alistFind]
  | cons hd tl ih =>
    obtain ⟨k₀, v₀⟩ := hd
    rw [alistKeys_cons, List.nodup_cons] at hnd
    by_cases h₀ : k₀ = k
    · subst h₀
      simp only [alistErase, if_pos rfl]
      rw [alistFind_eq_none]
      exact hnd.1
    · simp only [alistErase, if_neg h₀, alistFind, h₀, if_false]
      exact ih hnd.2

theorem alistKeys_insert (k : κ) (v : α) (l : List (κ × α)) (g : κ) :
    g ∈ alistKeys (alistInsert k v l) ↔ g = k ∨ g ∈ alistKeys l := by
  induction l with
  | nil => simp [alistInsert]
  | cons hd tl ih =>
    obtain ⟨k₀, v₀⟩ := hd
    by_cases h₀ : k₀ = k
    · subst h₀
      simp [alistInsert]
    · simp only [alistInsert, if_neg h₀, alistKeys_cons, List.mem_cons, ih]
      tauto

theorem alistKeys_insert_nodup (k : κ) (v : α) (l : List (κ × α))
    (hnd : (alistKeys l).Nodup) : (alistKeys (alistInsert k v l)).Nodup := by
  induction l with
  | nil => simp [alistInsert]
  | cons hd tl ih =>
    obtain ⟨k₀, v₀⟩ := hd
    rw [alistKeys_cons, List.nodup_cons] at hnd
    by_cases h₀ : k₀ = k
    · subst h₀
      rw [alistInsert, if_pos rfl, alistKeys_cons, List.nodup_cons]
      exact hnd
    · rw [alistInsert, if_neg h₀, alistKeys_cons, List.nodup_cons]
      refine ⟨fun hc => ?_, ih hnd.2⟩
      rcases (alistKeys_insert k v tl k₀).mp hc with h | h
      · exact h₀ h
      · exact hnd.1 h

theorem alistKeys_erase_subset (k : κ) (l : List (κ × α)) (g : κ)
    (h : g ∈ alistKeys (alistErase k l)) : g ∈ alistKeys l := by
  induction l with
  | nil => simpa [alistErase] using h
  | cons hd tl ih =>
    obtain ⟨k₀, v₀⟩ := hd
    by_cases h₀ : k₀ = k
    · subst h₀
      rw [alistErase, if_pos rfl] at h
      rw [alistKeys_cons]
      exact List.mem_cons_of_mem _ h
    · rw [alistErase, if_neg h₀, alistKeys_cons, List.mem_cons] at h
      rw [alistKeys_cons, List.mem_cons]
      rcases h with h | h
      · exact Or.inl h
      · exact Or.inr (ih h)

theorem alistKeys_erase_nodup (k : κ) (l : List (κ × α))
    (hnd : (alistKeys l).Nodup) : (alistKeys (alistErase k l)).Nodup := by
  induction l with
  | nil => simp [alistErase]
  | cons hd tl ih =>
    obtain ⟨k₀, v₀⟩ := hd
    rw [alistKeys_cons, List.nodup_cons] at hnd
    by_cases h₀ : k₀ = k
    · subst h₀
      rw [alistErase, if_pos rfl]
      exact hnd.2
    · rw [alistErase, if_neg h₀, alistKeys_cons, List.nodup_cons]
      exact ⟨fun hc => hnd.1 (alistKeys_erase_subset k tl k₀ hc), ih hnd.2⟩

theorem alistKeys_erase_not_mem (k : κ) (l : List (κ × α))
    (hnd : (alistKeys l).Nodup) : k ∉ alistKeys (alistErase k l) := by
  intro hc
  have h := alistFind_erase_self_of_nodup k l hnd
  rw [alistFind_eq_none] at h
  exact h hc

theorem alistKeys_erase_mem_iff (k g : κ) (l : List (κ × α)) (h : g ≠ k) :
    g ∈ alistKeys (alistErase k l) ↔ g ∈ alistKeys l := by
  rw [← not_iff_not, ← alistFind_eq_none, ← alistFind_eq_none,
    alistFind_erase_ne k g l h]

theorem alistFind_ne_none (k : κ) (l : List (κ × α)) :
    alistFind k l ≠ none ↔ k ∈ alistKeys l := by
  rw [Ne, alistFind_eq_none, not_not]

theorem mem_alistKeys_of_find {k : κ} {v : α} {l : List (κ × α)}
    (h : alistFind k l = some v) : k ∈ alistKeys l := by
  rw [← alistFind_ne_none]
  simp [h]

end AListLemmas

/-! ## Copy-on-write trie (src/trie/cow_trie.hpp)

A `COWTrieNodeWithValue<T>` is embedded as a node whose `value` field is
`some p`; `p.ty` is the dynamic type tag checked by the `dynamic_cast` in
`COWTrie::Get`, `p.val` the stored value, and `p.id` the address of the
`make_shared<T>` allocation, so that equality of `Payload`s is pointer
equality of the shared value handles in the source.  `is_value_node_` is
`(value).isSome`.  `Clone` preserves `children` and `value` (including the
payload handle), which in the embedding is reuse of the same terms. -/

/-- A typed payload held by a value node: dynamic type tag, value, and the
allocation identity of its shared_ptr. -/
structure Payload where
  ty : Nat
  val : Nat
  id : Nat
  deriving DecidableEq, Repr

/-- A trie node: ordered children map plus optional typed payload. -/
inductive COWTrieNode where
  | mk : List (Char × COWTrieNode) → Option Payload → COWTrieNode

/-- Children map of a node. -/
def COWTrieNode.children : COWTrieNode → List (Char × COWTrieNode)
  | .mk c _ => c

/-- Payload of a node (`some` exactly on the `COWTrieNodeWithValue` variant). -/
def COWTrieNode.value : COWTrieNode → Option Payload
  | .mk _ v => v

/-- A node created by `COWTrieNode()`: no children, no value. -/
def COWTrieNode.empty : COWTrieNode := .mk [] none

/-- A trie is one shared handle to a root node; `COWTrie()` makes a fresh
plain node. -/
structure COWTrie where
  root : COWTrieNode

/-- The empty trie of the default constructor. -/
def COWTrie.new : COWTrie := ⟨COWTrieNode.empty⟩

/-- Walk of `COWTrie::Find`: follow the key bytes through the children
maps; fail on the first missing edge. -/
def COWTrieNode.findNode (n : COWTrieNode) : List Char → Option COWTrieNode
  | [] => some n
  | c :: rest =>
    match alistFind c n.children with
    | none => none
    | some m => m.findNode rest

/-- The logic of `COWTrie::Get` started at node `n`: find the terminal
node, require it to be a value node, and require the dynamic type tag to
match (the `dynamic_cast<const COWTrieNodeWithValue<T>*>` test); any
failure collapses to `none` (nullptr). -/
def COWTrieNode.getFrom (n : COWTrieNode) (key : List Char) (ty : Nat) : Option Payload :=
  match n.findNode key with
  | none => none
  | some m =>
    match m.value with
    | none => none
    | some p => if p.ty = ty then some p else none

/-- `COWTrie::Get<T>(key)` with `T` the tag `ty`. -/
def COWTrie.Get (t : COWTrie) (key : List Char) (ty : Nat) : Option Payload :=
  t.root.getFrom key ty

/-- Path-copying walk of `COWTrie::Put`.  At each existing edge the child
is cloned (children and payload handle reused); a missing intermediate
edge gets a fresh plain node; the terminal step builds a
`COWTrieNodeWithValue` carrying payload `p` over the existing children
(empty key: over the root's children). -/
def COWTrieNode.putNode (n : COWTrieNode) : List Char → Payload → COWTrieNode
  | [], p => .mk n.children (some p)
  | c :: rest, p =>
    match alistFind c n.children with
    | some m => .mk (alistInsert c (m.putNode rest p) n.children) n.value
    | none => .mk (alistInsert c (COWTrieNode.empty.putNode rest p) n.children) n.value

/-- `COWTrie::Put<T>(key, value)`: returns the new trie built on the cloned
path.  `p` is the freshly allocated payload (`make_shared<T>`). -/
def COWTrie.Put (t : COWTrie) (key : List Char) (p : Payload) : COWTrie :=
  ⟨t.root.putNode key p⟩

/-- The loop and fix-up of `COWTrie::Remove` below the root, on a
non-empty key.  Result `none` means some edge was missing or the terminal
was not a value node, in which case `Remove` returns the original trie.
On the one-character suffix the caller node (`prev` in the source) either
erases the edge to a childless terminal or rebinds it to a plain node
keeping the terminal's children. -/
def COWTrieNode.removeNode (n : COWTrieNode) : List Char → Option COWTrieNode
  | [] => none
  | [c] =>
    match alistFind c n.children with
    | none => none
    | some m =>
      match m.value with
      | none => none
      | some _ =>
        if m.children.isEmpty then
          some (.mk (alistErase c n.children) n.value)
        else
          some (.mk (alistInsert c (.mk m.children none) n.children) n.value)
  | c :: rest@(_ :: _) =>
    match alistFind c n.children with
    | none => none
    | some m =>
      match m.removeNode rest with
      | none => none
      | some m' => some (.mk (alistInsert c m' n.children) n.value)

/-- `COWTrie::Remove(key)`.  Result `none` marks the undefined path: on the
empty key with a value-bearing root the source evaluates
`key[key_len - 1]` with `key_len == 0` (an out-of-bounds `string_view`
read) and, for a childless root, fails its own
`assert(it != prev->children_.end())`.  Every defined path returns
`some`: the original trie when no value-bearing node sits at `key`,
otherwise the new trie. -/
def COWTrie.Remove (t : COWTrie) (key : List Char) : Option COWTrie :=
  match key with
  | [] => if t.root.value.isSome then none else some t
  | _ :: _ =>
    match t.root.removeNode key with
    | none => some t
    | some r => some ⟨r⟩

/-- Well-formedness every tree reachable through the C++ API has: each
`std::map` holds a key at most once.  Arbitrary `COWTrieNode` terms can
duplicate keys in the association list; such terms represent no C++
state. -/
inductive COWTrieNode.WF : COWTrieNode → Prop
  | mk : ∀ (children : List (Char × COWTrieNode)) (value : Option Payload),
      (alistKeys children).Nodup →
      (∀ q ∈ children, COWTrieNode.WF q.2) →
      COWTrieNode.WF (.mk children value)

theorem COWTrieNode.WF.keys_nodup {n : COWTrieNode} (h : n.WF) :
    (alistKeys n.children).Nodup := by
  cases h with
  | mk children value hnd hch => exact hnd

theorem COWTrieNode.WF.child {n m : COWTrieNode} {c : Char} (h : n.WF)
    (hfind : alistFind c n.children = some m) : m.WF := by
  cases h with
  | mk children value hnd hch => exact hch _ (alistFind_mem hfind)

/-! ### Basic reduction lemmas for the trie operations -/

@[simp] theorem COWTrieNode.children_mk (ch : List (Char × COWTrieNode))
    (v : Option Payload) : (COWTrieNode.mk ch v).children = ch := rfl

@[simp] theorem COWTrieNode.value_mk (ch : List (Char × COWTrieNode))
    (v : Option Payload) : (COWTrieNode.mk ch v).value = v := rfl

theorem COWTrieNode.getFrom_nil (n : COWTrieNode) (ty : Nat) :
    n.getFrom [] ty =
      match n.value with
      | none => none
      | some p => if p.ty = ty then some p else none := rfl

theorem COWTrieNode.getFrom_cons (n : COWTrieNode) (c : Char) (rest : List Char)
    (ty : Nat) :
    n.getFrom (c :: rest) ty =
      match alistFind c n.children with
      | none => none
      | some m => m.getFrom rest ty := by
  cases h : alistFind c n.children <;>
    simp [COWTrieNode.getFrom, COWTrieNode.findNode, h]

theorem COWTrieNode.getFrom_empty (key : List Char) (ty : Nat) :
    COWTrieNode.empty.getFrom key ty = none := by
  cases key with
  | nil => rfl
  | cons c rest => rw [getFrom_cons]; rfl

/-- On the put path the terminal always ends up holding exactly the new
payload: the source builds a `COWTrieNodeWithValue<T>` there, overwriting
any previous payload. -/
theorem COWTrieNode.getFrom_putNode_self (key : List Char) (n : COWTrieNode)
    (p : Payload) : (n.putNode key p).getFrom key p.ty = some p := by
  induction key generalizing n with
  | nil => simp [putNode, getFrom_nil]
  | cons c rest ih =>
    cases h : alistFind c n.children with
    | none =>
      rw [putNode]
      simp only [h]
      rw [getFrom_cons]
      simp [alistFind_insert_self, ih]
    | some m =>
      rw [putNode]
      simp only [h]
      rw [getFrom_cons]
      simp [alistFind_insert_self, ih]

/-- Reading the put key back at any other dynamic type tag fails the
`dynamic_cast` and collapses to nullptr. -/
theorem COWTrieNode.getFrom_putNode_ne_ty (key : List Char) (n : COWTrieNode)
    (p : Payload) (u : Nat) (hu : u ≠ p.ty) :
    (n.putNode key p).getFrom key u = none := by
  induction key generalizing n with
  | nil => simp [putNode, getFrom_nil, Ne.symm hu]
  | cons c rest ih =>
    cases h : alistFind c n.children with
    | none =>
      rw [putNode]
      simp only [h]
      rw [getFrom_cons]
      simp [alistFind_insert_self, ih]
    | some m =>
      rw [putNode]
      simp only [h]
      rw [getFrom_cons]
      simp [alistFind_insert_self, ih]

/-- Structural sharing of `Put`: any key other than the put key reads the
very same payload handle afterwards (nodes off the path are shared, nodes
on the path are cloned with their payload handle reused). -/
theorem COWTrieNode.getFrom_putNode_stable (key' : List Char) (n : COWTrieNode)
    (key : List Char) (p' : Payload) (ty : Nat) (hne : key ≠ key') :
    (n.putNode key' p').getFrom key ty = n.getFrom key ty := by
  induction key' generalizing n key with
  | nil =>
    cases key with
    | nil => exact absurd rfl hne
    | cons c rest =>
      rw [putNode, getFrom_cons, getFrom_cons]
      rfl
  | cons c' rest' ih =>
    cases key with
    | nil =>
      cases h : alistFind c' n.children <;>
        · rw [putNode]
          simp only [h]
          rw [getFrom_nil, getFrom_nil]
          rfl
    | cons c rest =>
      by_cases hc : c = c'
      · subst hc
        have hrest : rest ≠ rest' := fun h => hne (h ▸ rfl)
        cases h : alistFind c n.children with
        | none =>
          rw [putNode]
          simp only [h]
          rw [getFrom_cons]
          simp only [children_mk, alistFind_insert_self]
          rw [ih _ _ hrest, getFrom_empty, getFrom_cons, h]
        | some m =>
          rw [putNode]
          simp only [h]
          rw [getFrom_cons]
          simp only [children_mk, alistFind_insert_self]
          rw [ih _ _ hrest, getFrom_cons, h]
      · cases h : alistFind c' n.children <;>
          · rw [putNode]
            simp only [h]
            rw [getFrom_cons, getFrom_cons]
            simp only [children_mk, alistFind_insert_ne c' c _ _ hc]

/-- Structural sharing of `Remove`: when `Remove` rebuilds a tree, any key
other than the removed one reads the same payload handle afterwards. -/
theorem COWTrieNode.getFrom_removeNode_stable (key' : List Char) (n n' : COWTrieNode)
    (key : List Char) (ty : Nat) (hwf : n.WF) (hne : key ≠ key')
    (hrm : n.removeNode key' = some n') :
    n'.getFrom key ty = n.getFrom key ty := by
  induction key' generalizing n n' key with
  | nil => simp [removeNode] at hrm
  | cons c' rest' ih =>
    cases rest' with
    | nil =>
      rw [removeNode] at hrm
      cases h : alistFind c' n.children with
      | none => simp [h] at hrm
      | some m =>
        simp only [h] at hrm
        cases hv : m.value with
        | none => simp [hv] at hrm
        | some q =>
          simp only [hv] at hrm
          by_cases hemp : m.children.isEmpty
          · rw [if_pos hemp] at hrm
            cases hrm
            cases key with
            | nil => rw [getFrom_nil, getFrom_nil]; rfl
            | cons c rest =>
              by_cases hc : c = c'
              · subst hc
                have hrest : rest ≠ [] := fun hr => hne (hr ▸ rfl)
                rw [getFrom_cons, getFrom_cons, h]
                simp only [children_mk]
                rw [alistFind_erase_self_of_nodup c n.children hwf.keys_nodup]
                cases rest with
                | nil => exact absurd rfl hrest
                | cons d rest₂ =>
                  rw [getFrom_cons]
                  rw [List.isEmpty_iff] at hemp
                  rw [hemp]
                  rfl
              · rw [getFrom_cons, getFrom_cons]
                simp only [children_mk]
                rw [alistFind_erase_ne c' c _ hc]
          · rw [if_neg hemp] at hrm
            cases hrm
            cases key with
            | nil => rw [getFrom_nil, getFrom_nil]; rfl
            | cons c rest =>
              by_cases hc : c = c'
              · subst hc
                have hrest : rest ≠ [] := fun hr => hne (hr ▸ rfl)
                rw [getFrom_cons, getFrom_cons, h]
                simp only [children_mk, alistFind_insert_self]
                cases rest with
                | nil => exact absurd rfl hrest
                | cons d rest₂ => rw [getFrom_cons, getFrom_cons]; rfl
              · rw [getFrom_cons, getFrom_cons]
                simp only [children_mk]
                rw [alistFind_insert_ne c' c _ _ hc]
    | cons e rest₂ =>
      rw [removeNode] at hrm
      cases h : alistFind c' n.children with
      | none => simp [h] at hrm
      | some m =>
        simp only [h] at hrm
        cases hrec : m.removeNode (e :: rest₂) with
        | none => simp [hrec] at hrm
        | some m' =>
          simp only [hrec] at hrm
          cases hrm
          cases key with
          | nil => rw [getFrom_nil, getFrom_nil]; rfl
          | cons c rest =>
            by_cases hc : c = c'
            · subst hc
              have hrest : rest ≠ e :: rest₂ := fun hr => hne (hr ▸ rfl)
              rw [getFrom_cons, getFrom_cons, h]
              simp only [children_mk, alistFind_insert_self]
              exact ih m m' rest (hwf.child h) hrest hrec
            · rw [getFrom_cons, getFrom_cons]
              simp only [children_mk]
              rw [alistFind_insert_ne c' c _ _ hc]

/-! ### Claims about the copy-on-write trie -/

/-- C1: for every trie `t`, every key (the empty key included) and every
payload of a supported type, `t.Put(k, v).Get<T>(k)` yields exactly the
stored value; in particular the trie
`empty.Put<u32>("", 233).Put<u32>("te", 23)` yields 233 at key `""` and
23 at key `"te"`. -/
theorem claim_C1_put_get_roundtrip :
    (∀ (t : COWTrie) (key : List Char) (p : Payload),
        (t.Put key p).Get key p.ty = some p) ∧
    ((COWTrie.new.Put [] ⟨0, 233, 0⟩).Put ['t', 'e'] ⟨0, 23, 1⟩).Get [] 0 =
      some ⟨0, 233, 0⟩ ∧
    ((COWTrie.new.Put [] ⟨0, 233, 0⟩).Put ['t', 'e'] ⟨0, 23, 1⟩).Get ['t', 'e'] 0 =
      some ⟨0, 23, 1⟩ := by
  refine ⟨fun t key p => ?_, by decide, by decide⟩
  exact COWTrieNode.getFrom_putNode_self key t.root p

/-- C2: the claim is right and the code is wrong on the empty key.  With a
value-bearing root, `COWTrie::Remove("")` evaluates `key[key_len - 1]`
with `key_len == 0` — an out-of-bounds `string_view` read — and for a
childless valued root its own `assert(it != prev->children_.end())`
fails; the value is not removed.  The model marks this undefined path as
`none`; this theorem evaluates the code at the failing input
`empty.Put<u32>("", 233).Remove("")`. -/
theorem claim_C2_remove_empty_key_undefined :
    (COWTrie.new.Put [] ⟨0, 233, 0⟩).Remove [] = none := rfl

/-- C3: putting at type `T` and reading at a different dynamic type tag
`U` always yields not-found (a null pointer); the mismatch never surfaces
as a distinct error — `Get` has no other failure channel than `none`. -/
theorem claim_C3_type_isolation (t : COWTrie) (key : List Char) (p : Payload)
    (u : Nat) (hu : u ≠ p.ty) : (t.Put key p).Get key u = none :=
  COWTrieNode.getFrom_putNode_ne_ty key t.root p u hu

theorem claim_C3_witness :
    (1 : Nat) ≠ (0 : Nat) ∧
    (COWTrie.new.Put ['t', 'e'] ⟨0, 2333, 0⟩).Get ['t', 'e'] 1 = none :=
  ⟨by decide, claim_C3_type_isolation COWTrie.new ['t', 'e'] ⟨0, 2333, 0⟩ 1 (by decide)⟩

/-- C4: pointer stability.  If `Get<T>(k)` yields payload handle `p` in
`t1`, then after `t2 = t1.Put(k', v')` with `k' ≠ k` — or after a
`Remove(k')` that returns a tree — `Get<T>(k)` on `t2` yields the same
handle `p` (payload equality includes the allocation identity, i.e.
pointer equality).  The well-formedness hypothesis states what every
C++-representable tree satisfies: each children map binds a key once. -/
theorem claim_C4_pointer_stability (t : COWTrie) (k k' : List Char)
    (p' : Payload) (ty : Nat) (hne : k ≠ k') (hwf : t.root.WF) :
    (t.Put k' p').Get k ty = t.Get k ty ∧
    (∀ t2 : COWTrie, t.Remove k' = some t2 → t2.Get k ty = t.Get k ty) := by
  constructor
  · exact COWTrieNode.getFrom_putNode_stable k' t.root k p' ty hne
  · intro t2 hrm
    cases k' with
    | nil =>
      rw [COWTrie.Remove] at hrm
      by_cases hv : t.root.value.isSome
      · rw [if_pos hv] at hrm; cases hrm
      · rw [if_neg hv] at hrm
        cases hrm
        rfl
    | cons c' rest' =>
      rw [COWTrie.Remove] at hrm
      cases hrec : t.root.removeNode (c' :: rest') with
      | none =>
        rw [hrec] at hrm
        cases hrm
        rfl
      | some r =>
        rw [hrec] at hrm
        cases hrm
        exact COWTrieNode.getFrom_removeNode_stable (c' :: rest') t.root r k ty hwf hne hrec

theorem claim_C4_witness :
    (['a'] : List Char) ≠ ['b'] ∧
    (COWTrieNode.mk [('a', COWTrieNode.mk [] (some ⟨0, 1, 7⟩))] none).WF ∧
    ((COWTrie.mk (.mk [('a', .mk [] (some ⟨0, 1, 7⟩))] none)).Put ['b'] ⟨0, 2, 8⟩).Get ['a'] 0 =
      (COWTrie.mk (.mk [('a', .mk [] (some ⟨0, 1, 7⟩))] none)).Get ['a'] 0 := by
  have hwf : (COWTrieNode.mk [('a', COWTrieNode.mk [] (some ⟨0, 1, 7⟩))] none).WF := by
    constructor
    · simp
    · intro q hq
      simp only [List.mem_singleton] at hq
      subst hq
      constructor
      · simp
      · intro q' hq'
        simp at hq'
  exact ⟨by decide, hwf,
    (claim_C4_pointer_stability (COWTrie.mk (.mk [('a', .mk [] (some ⟨0, 1, 7⟩))] none))
      ['a'] ['b'] ⟨0, 2, 8⟩ 0 (by decide) hwf).1⟩

/-! ## LRU replacer (src/buffer/lru_replacer.hpp)

State: the `free` FIFO, the `lru` (evictable) FIFO — front of a list is
the front of the `std::list` — and the pin-count map.  `free_map_` and
`lru_map_` are position indices kept exactly in sync with the lists, so
membership in them is membership in the corresponding list.  The two
`exit(0)` paths ("frame both exist in lru_list and pin_map") are modelled
as `none`.  Pin counters are `size_t`; their increment and decrement wrap
modulo 2^64. -/

/-- Modulus of the size_t counter arithmetic. -/
def sizeTMod : Nat := 18446744073709551616

/-- State of an `LRUReplacer`. -/
structure LRUReplacer where
  free_list : List Nat
  lru_list : List Nat
  pin_map : List (Nat × Nat)
  deriving DecidableEq, Repr

/-- The constructor `LRUReplacer(num_pages)`: all frame ids free, in
ascending order. -/
def LRUReplacer.ofSize (num_pages : Nat) : LRUReplacer :=
  ⟨List.range num_pages, [], []⟩

/-- `LRUReplacer::Victim`: pop the front of `free`, else the front of
`lru`, else report no victim; then pin the popped frame with count 1.
`none` is the `exit(0)` on a frame already pinned. -/
def LRUReplacer.Victim (r : LRUReplacer) : Option (Option Nat × LRUReplacer) :=
  match r.free_list with
  | f :: rest =>
    match alistFind f r.pin_map with
    | none => some (some f, ⟨rest, r.lru_list, alistInsert f 1 r.pin_map⟩)
    | some _ => none
  | [] =>
    match r.lru_list with
    | f :: rest =>
      match alistFind f r.pin_map with
      | none => some (some f, ⟨[], rest, alistInsert f 1 r.pin_map⟩)
      | some _ => none
    | [] => some (none, r)

/-- `LRUReplacer::Pin`. -/
def LRUReplacer.Pin (r : LRUReplacer) (f : Nat) : LRUReplacer :=
  if f ∉ r.lru_list ∧ alistFind f r.pin_map = none then
    if f ∈ r.free_list then
      ⟨r.free_list.erase f, r.lru_list, alistInsert f 1 r.pin_map⟩
    else r
  else
    let lru' := if f ∈ r.lru_list then r.lru_list.erase f else r.lru_list
    match alistFind f r.pin_map with
    | some c => ⟨r.free_list, lru', alistInsert f ((c + 1) % sizeTMod) r.pin_map⟩
    | none => ⟨r.free_list, lru', alistInsert f 1 r.pin_map⟩

/-- `LRUReplacer::Unpin`.  The decremented count is stored even when it
stays nonzero; at zero the frame is erased from the pin map and pushed on
the back of the `lru` FIFO.  `none` is the `exit(0)` on a frame already
evictable. -/
def LRUReplacer.Unpin (r : LRUReplacer) (f : Nat) : Option LRUReplacer :=
  match alistFind f r.pin_map with
  | none => some r
  | some c =>
    let c' := (c + (sizeTMod - 1)) % sizeTMod
    if c' ≠ 0 then some ⟨r.free_list, r.lru_list, alistInsert f c' r.pin_map⟩
    else if f ∈ r.lru_list then none
    else some ⟨r.free_list, r.lru_list ++ [f], alistErase f r.pin_map⟩

/-- `LRUReplacer::Size`: the victimisable population. -/
def LRUReplacer.Size (r : LRUReplacer) : Nat :=
  r.free_list.length + r.lru_list.length

/-- One external call to the replacer. -/
inductive ROp where
  | pin : Nat → ROp
  | unpin : Nat → ROp
  | victim : ROp
  deriving DecidableEq, Repr

/-- Effect of one call on the state (`none` = the process exited). -/
def LRUReplacer.step (r : LRUReplacer) : ROp → Option LRUReplacer
  | .pin f => some (r.Pin f)
  | .unpin f => r.Unpin f
  | .victim => r.Victim.map Prod.snd

/-- Run a sequence of calls. -/
def LRUReplacer.runOps (r : LRUReplacer) : List ROp → Option LRUReplacer
  | [] => some r
  | op :: rest =>
    match r.step op with
    | none => none
    | some r' => r'.runOps rest

/-- Run a sequence of calls, collecting the value every `victim` call
reports. -/
def LRUReplacer.runVictims (r : LRUReplacer) :
    List ROp → Option (LRUReplacer × List (Option Nat))
  | [] => some (r, [])
  | .victim :: rest =>
    match r.Victim with
    | none => none
    | some (o, r') =>
      match r'.runVictims rest with
      | none => none
      | some (rf, os) => some (rf, o :: os)
  | op :: rest =>
    match r.step op with
    | none => none
    | some r' => r'.runVictims rest

/-- States reachable from the freshly constructed replacer by calls that
do not kill the process. -/
def LRUReplacer.Reachable (n : Nat) (r : LRUReplacer) : Prop :=
  ∃ ops : List ROp, (LRUReplacer.ofSize n).runOps ops = some r

/-- The replacer invariant: the three states are disjoint and cover
`{0..n-1}`, and the FIFOs and the pin map are duplicate-free. -/
structure LRUInv (n : Nat) (r : LRUReplacer) : Prop where
  free_nodup : r.free_list.Nodup
  lru_nodup : r.lru_list.Nodup
  pin_nodup : (alistKeys r.pin_map).Nodup
  free_lru : ∀ f, f ∈ r.free_list → f ∉ r.lru_list
  free_pin : ∀ f, f ∈ r.free_list → f ∉ alistKeys r.pin_map
  lru_pin : ∀ f, f ∈ r.lru_list → f ∉ alistKeys r.pin_map
  cover : ∀ f, (f ∈ r.free_list ∨ f ∈ r.lru_list ∨ f ∈ alistKeys r.pin_map) ↔ f < n

/-! ### Branch equations for the replacer operations -/

theorem LRUReplacer.Pin_free (r : LRUReplacer) (f : Nat)
    (h1 : f ∉ r.lru_list) (h2 : alistFind f r.pin_map = none)
    (h3 : f ∈ r.free_list) :
    r.Pin f = ⟨r.free_list.erase f, r.lru_list, alistInsert f 1 r.pin_map⟩ := by
  unfold LRUReplacer.Pin
  rw [if_pos ⟨h1, h2⟩, if_pos h3]

theorem LRUReplacer.Pin_unknown (r : LRUReplacer) (f : Nat)
    (h1 : f ∉ r.lru_list) (h2 : alistFind f r.pin_map = none)
    (h3 : f ∉ r.free_list) : r.Pin f = r := by
  unfold LRUReplacer.Pin
  rw [if_pos ⟨h1, h2⟩, if_neg h3]

theorem LRUReplacer.Pin_pinned (r : LRUReplacer) (f : Nat) (c : Nat)
    (h1 : f ∉ r.lru_list) (hf : alistFind f r.pin_map = some c) :
    r.Pin f = ⟨r.free_list, r.lru_list,
      alistInsert f ((c + 1) % sizeTMod) r.pin_map⟩ := by
  unfold LRUReplacer.Pin
  rw [if_neg (by simp [hf]), if_neg h1]
  simp only [hf]

theorem LRUReplacer.Pin_lru (r : LRUReplacer) (f : Nat)
    (h1 : f ∈ r.lru_list) (hf : alistFind f r.pin_map = none) :
    r.Pin f = ⟨r.free_list, r.lru_list.erase f, alistInsert f 1 r.pin_map⟩ := by
  unfold LRUReplacer.Pin
  rw [if_neg (by simp [h1]), if_pos h1]
  simp only [hf]

theorem LRUReplacer.Unpin_not_pinned (r : LRUReplacer) (f : Nat)
    (hf : alistFind f r.pin_map = none) : r.Unpin f = some r := by
  unfold LRUReplacer.Unpin
  simp only [hf]

theorem LRUReplacer.Unpin_dec (r : LRUReplacer) (f : Nat) (c : Nat)
    (hf : alistFind f r.pin_map = some c)
    (hc : (c + (sizeTMod - 1)) % sizeTMod ≠ 0) :
    r.Unpin f = some ⟨r.free_list, r.lru_list,
      alistInsert f ((c + (sizeTMod - 1)) % sizeTMod) r.pin_map⟩ := by
  unfold LRUReplacer.Unpin
  simp only [hf]
  rw [if_pos hc]

theorem LRUReplacer.Unpin_zero (r : LRUReplacer) (f : Nat) (c : Nat)
    (hf : alistFind f r.pin_map = some c)
    (hc : (c + (sizeTMod - 1)) % sizeTMod = 0) (hl : f ∉ r.lru_list) :
    r.Unpin f = some ⟨r.free_list, r.lru_list ++ [f], alistErase f r.pin_map⟩ := by
  unfold LRUReplacer.Unpin
  simp only [hf]
  rw [if_neg (by simp [hc]), if_neg hl]

theorem LRUReplacer.Victim_free (r : LRUReplacer) (f : Nat) (rest : List Nat)
    (hfree : r.free_list = f :: rest) (hf : alistFind f r.pin_map = none) :
    r.Victim = some (some f, ⟨rest, r.lru_list, alistInsert f 1 r.pin_map⟩) := by
  unfold LRUReplacer.Victim
  simp only [hfree, hf]

theorem LRUReplacer.Victim_lru (r : LRUReplacer) (f : Nat) (rest : List Nat)
    (hfree : r.free_list = []) (hlru : r.lru_list = f :: rest)
    (hf : alistFind f r.pin_map = none) :
    r.Victim = some (some f, ⟨[], rest, alistInsert f 1 r.pin_map⟩) := by
  unfold LRUReplacer.Victim
  simp only [hfree, hlru, hf]

theorem LRUReplacer.Victim_empty (r : LRUReplacer)
    (hfree : r.free_list = []) (hlru : r.lru_list = []) :
    r.Victim = some (none, r) := by
  unfold LRUReplacer.Victim
  simp only [hfree, hlru]

/-! ### Preservation of the invariant -/

theorem LRUInv.ofSize (n : Nat) : LRUInv n (LRUReplacer.ofSize n) := by
  refine ⟨List.nodup_range n, List.nodup_nil, List.nodup_nil, ?_, ?_, ?_, ?_⟩ <;>
    simp [LRUReplacer.ofSize, alistKeys, List.mem_range]

/-- Membership in the keys after rebinding an already present key is
unchanged. -/
theorem alistKeys_insert_of_mem {f : Nat} {v : Nat} {l : List (Nat × Nat)}
    (hfk : f ∈ alistKeys l) (g : Nat) :
    g ∈ alistKeys (alistInsert f v l) ↔ g ∈ alistKeys l := by
  rw [alistKeys_insert]
  constructor
  · rintro (hq | hq)
    · subst hq; exact hfk
    · exact hq
  · exact Or.inr

theorem LRUInv.pin (n : Nat) (r : LRUReplacer) (f : Nat) (h : LRUInv n r) :
    LRUInv n (r.Pin f) := by
  by_cases hlru : f ∈ r.lru_list
  · have hf : alistFind f r.pin_map = none :=
      (alistFind_eq_none f r.pin_map).mpr (h.lru_pin f hlru)
    rw [LRUReplacer.Pin_lru r f hlru hf]
    refine ⟨h.free_nodup, h.lru_nodup.erase f,
      alistKeys_insert_nodup f 1 _ h.pin_nodup, ?_, ?_, ?_, ?_⟩
    · intro g hg
      exact fun hc => h.free_lru g hg (List.mem_of_mem_erase hc)
    · intro g hg hk
      rcases (alistKeys_insert f 1 r.pin_map g).mp hk with hq | hq
      · subst hq; exact h.free_lru g hg hlru
      · exact h.free_pin g hg hq
    · intro g hg hk
      rcases (alistKeys_insert f 1 r.pin_map g).mp hk with hq | hq
      · subst hq; exact h.lru_nodup.not_mem_erase hg
      · exact h.lru_pin g (List.mem_of_mem_erase hg) hq
    · intro g
      constructor
      · rintro (hg | hg | hg)
        · exact (h.cover g).mp (Or.inl hg)
        · exact (h.cover g).mp (Or.inr (Or.inl (List.mem_of_mem_erase hg)))
        · rcases (alistKeys_insert f 1 r.pin_map g).mp hg with hq | hq
          · subst hq; exact (h.cover g).mp (Or.inr (Or.inl hlru))
          · exact (h.cover g).mp (Or.inr (Or.inr hq))
      · intro hg
        rcases (h.cover g).mpr hg with hq | hq | hq
        · exact Or.inl hq
        · by_cases hgf : g = f
          · subst hgf
            exact Or.inr (Or.inr ((alistKeys_insert g 1 r.pin_map g).mpr (Or.inl rfl)))
          · exact Or.inr (Or.inl ((List.mem_erase_of_ne hgf).mpr hq))
        · exact Or.inr (Or.inr ((alistKeys_insert f 1 r.pin_map g).mpr (Or.inr hq)))
  · cases hf : alistFind f r.pin_map with
    | some c =>
      have hfk : f ∈ alistKeys r.pin_map := mem_alistKeys_of_find hf
      rw [LRUReplacer.Pin_pinned r f c hlru hf]
      refine ⟨h.free_nodup, h.lru_nodup,
        alistKeys_insert_nodup _ _ _ h.pin_nodup, h.free_lru, ?_, ?_, ?_⟩
      · intro g hg hk
        exact h.free_pin g hg ((alistKeys_insert_of_mem hfk g).mp hk)
      · intro g hg hk
        exact h.lru_pin g hg ((alistKeys_insert_of_mem hfk g).mp hk)
      · intro g
        rw [alistKeys_insert_of_mem hfk g]
        exact h.cover g
    | none =>
      by_cases hfree : f ∈ r.free_list
      · rw [LRUReplacer.Pin_free r f hlru hf hfree]
        refine ⟨h.free_nodup.erase f, h.lru_nodup,
          alistKeys_insert_nodup f 1 _ h.pin_nodup, ?_, ?_, ?_, ?_⟩
        · intro g hg
          exact h.free_lru g (List.mem_of_mem_erase hg)
        · intro g hg hk
          rcases (alistKeys_insert f 1 r.pin_map g).mp hk with hq | hq
          · subst hq; exact h.free_nodup.not_mem_erase hg
          · exact h.free_pin g (List.mem_of_mem_erase hg) hq
        · intro g hg hk
          rcases (alistKeys_insert f 1 r.pin_map g).mp hk with hq | hq
          · subst hq; exact hlru hg
          · exact h.lru_pin g hg hq
        · intro g
          constructor
          · rintro (hg | hg | hg)
            · exact (h.cover g).mp (Or.inl (List.mem_of_mem_erase hg))
            · exact (h.cover g).mp (Or.inr (Or.inl hg))
            · rcases (alistKeys_insert f 1 r.pin_map g).mp hg with hq | hq
              · subst hq; exact (h.cover g).mp (Or.inl hfree)
              · exact (h.cover g).mp (Or.inr (Or.inr hq))
          · intro hg
            rcases (h.cover g).mpr hg with hq | hq | hq
            · by_cases hgf : g = f
              · subst hgf
                exact Or.inr (Or.inr ((alistKeys_insert g 1 r.pin_map g).mpr (Or.inl rfl)))
              · exact Or.inl ((List.mem_erase_of_ne hgf).mpr hq)
            · exact Or.inr (Or.inl hq)
            · exact Or.inr (Or.inr ((alistKeys_insert f 1 r.pin_map g).mpr (Or.inr hq)))
      · rw [LRUReplacer.Pin_unknown r f hlru hf hfree]
        exact h

theorem LRUInv.unpin (n : Nat) (r : LRUReplacer) (f : Nat) (h : LRUInv n r) :
    ∃ r', r.Unpin f = some r' ∧ LRUInv n r' := by
  cases hf : alistFind f r.pin_map with
  | none => exact ⟨r, LRUReplacer.Unpin_not_pinned r f hf, h⟩
  | some c =>
    have hfk : f ∈ alistKeys r.pin_map := mem_alistKeys_of_find hf
    have hflru : f ∉ r.lru_list := fun hc => h.lru_pin f hc hfk
    have hffree : f ∉ r.free_list := fun hc => h.free_pin f hc hfk
    by_cases hc' : (c + (sizeTMod - 1)) % sizeTMod ≠ 0
    · refine ⟨_, LRUReplacer.Unpin_dec r f c hf hc', ?_⟩
      refine ⟨h.free_nodup, h.lru_nodup,
        alistKeys_insert_nodup _ _ _ h.pin_nodup, h.free_lru, ?_, ?_, ?_⟩
      · intro g hg hk
        exact h.free_pin g hg ((alistKeys_insert_of_mem hfk g).mp hk)
      · intro g hg hk
        exact h.lru_pin g hg ((alistKeys_insert_of_mem hfk g).mp hk)
      · intro g
        rw [alistKeys_insert_of_mem hfk g]
        exact h.cover g
    · rw [not_not] at hc'
      refine ⟨_, LRUReplacer.Unpin_zero r f c hf hc' hflru, ?_⟩
      refine ⟨h.free_nodup, ?_, alistKeys_erase_nodup f _ h.pin_nodup, ?_, ?_, ?_, ?_⟩
      · rw [List.nodup_append]
        exact ⟨h.lru_nodup, List.nodup_singleton f,
          fun g hg hg' => hflru ((List.mem_singleton.mp hg') ▸ hg)⟩
      · intro g hg hk
        rcases List.mem_append.mp hk with hq | hq
        · exact h.free_lru g hg hq
        · exact hffree ((List.mem_singleton.mp hq) ▸ hg)
      · intro g hg hk
        exact h.free_pin g hg (alistKeys_erase_subset f _ g hk)
      · intro g hg hk
        rcases List.mem_append.mp hg with hq | hq
        · exact h.lru_pin g hq (alistKeys_erase_subset f _ g hk)
        · rw [List.mem_singleton.mp hq] at hk
          exact alistKeys_erase_not_mem f _ h.pin_nodup hk
      · intro g
        constructor
        · rintro (hg | hg | hg)
          · exact (h.cover g).mp (Or.inl hg)
          · rcases List.mem_append.mp hg with hq | hq
            · exact (h.cover g).mp (Or.inr (Or.inl hq))
            · rw [List.mem_singleton.mp hq]
              exact (h.cover f).mp (Or.inr (Or.inr hfk))
          · exact (h.cover g).mp (Or.inr (Or.inr (alistKeys_erase_subset f _ g hg)))
        · intro hg
          rcases (h.cover g).mpr hg with hq | hq | hq
          · exact Or.inl hq
          · exact Or.inr (Or.inl (List.mem_append.mpr (Or.inl hq)))
          · by_cases hgf : g = f
            · subst hgf
              exact Or.inr (Or.inl (List.mem_append.mpr (Or.inr (List.mem_singleton.mpr rfl))))
            · exact Or.inr (Or.inr ((alistKeys_erase_mem_iff f g _ hgf).mpr hq))

theorem LRUInv.victim (n : Nat) (r : LRUReplacer) (h : LRUInv n r) :
    ∃ o r', r.Victim = some (o, r') ∧ LRUInv n r' := by
  cases hfree : r.free_list with
  | cons f rest =>
    have hmem : f ∈ r.free_list := by rw [hfree]; exact List.mem_cons_self f rest
    have hpin : alistFind f r.pin_map = none :=
      (alistFind_eq_none f r.pin_map).mpr (h.free_pin f hmem)
    refine ⟨some f, _, LRUReplacer.Victim_free r f rest hfree hpin, ?_⟩
    have hnd := h.free_nodup
    rw [hfree, List.nodup_cons] at hnd
    refine ⟨hnd.2, h.lru_nodup, alistKeys_insert_nodup f 1 _ h.pin_nodup, ?_, ?_, ?_, ?_⟩
    · intro g hg
      exact h.free_lru g (by rw [hfree]; exact List.mem_cons_of_mem f hg)
    · intro g hg hk
      rcases (alistKeys_insert f 1 r.pin_map g).mp hk with hq | hq
      · subst hq; exact hnd.1 hg
      · exact h.free_pin g (by rw [hfree]; exact List.mem_cons_of_mem f hg) hq
    · intro g hg hk
      rcases (alistKeys_insert f 1 r.pin_map g).mp hk with hq | hq
      · subst hq; exact h.free_lru g hmem hg
      · exact h.lru_pin g hg hq
    · intro g
      constructor
      · rintro (hg | hg | hg)
        · exact (h.cover g).mp (Or.inl (by rw [hfree]; exact List.mem_cons_of_mem f hg))
        · exact (h.cover g).mp (Or.inr (Or.inl hg))
        · rcases (alistKeys_insert f 1 r.pin_map g).mp hg with hq | hq
          · subst hq; exact (h.cover g).mp (Or.inl hmem)
          · exact (h.cover g).mp (Or.inr (Or.inr hq))
      · intro hg
        rcases (h.cover g).mpr hg with hq | hq | hq
        · rw [hfree, List.mem_cons] at hq
          rcases hq with hq | hq
          · subst hq
            exact Or.inr (Or.inr ((alistKeys_insert g 1 r.pin_map g).mpr (Or.inl rfl)))
          · exact Or.inl hq
        · exact Or.inr (Or.inl hq)
        · exact Or.inr (Or.inr ((alistKeys_insert f 1 r.pin_map g).mpr (Or.inr hq)))
  | nil =>
    cases hlru : r.lru_list with
    | cons f rest =>
      have hmem : f ∈ r.lru_list := by rw [hlru]; exact List.mem_cons_self f rest
      have hpin : alistFind f r.pin_map = none :=
        (alistFind_eq_none f r.pin_map).mpr (h.lru_pin f hmem)
      refine ⟨some f, _, LRUReplacer.Victim_lru r f rest hfree hlru hpin, ?_⟩
      have hnd := h.lru_nodup
      rw [hlru, List.nodup_cons] at hnd
      refine ⟨List.nodup_nil, hnd.2, alistKeys_insert_nodup f 1 _ h.pin_nodup,
        ?_, ?_, ?_, ?_⟩
      · intro g hg
        simp at hg
      · intro g hg hk
        simp at hg
      · intro g hg hk
        rcases (alistKeys_insert f 1 r.pin_map g).mp hk with hq | hq
        · subst hq; exact hnd.1 hg
        · exact h.lru_pin g (by rw [hlru]; exact List.mem_cons_of_mem f hg) hq
      · intro g
        constructor
        · rintro (hg | hg | hg)
          · simp at hg
          · exact (h.cover g).mp
              (Or.inr (Or.inl (by rw [hlru]; exact List.mem_cons_of_mem f hg)))
          · rcases (alistKeys_insert f 1 r.pin_map g).mp hg with hq | hq
            · subst hq; exact (h.cover g).mp (Or.inr (Or.inl hmem))
            · exact (h.cover g).mp (Or.inr (Or.inr hq))
        · intro hg
          rcases (h.cover g).mpr hg with hq | hq | hq
          · rw [hfree] at hq
            simp at hq
          · rw [hlru, List.mem_cons] at hq
            rcases hq with hq | hq
            · subst hq
              exact Or.inr (Or.inr ((alistKeys_insert g 1 r.pin_map g).mpr (Or.inl rfl)))
            · exact Or.inr (Or.inl hq)
          · exact Or.inr (Or.inr ((alistKeys_insert f 1 r.pin_map g).mpr (Or.inr hq)))
    | nil => exact ⟨none, r, LRUReplacer.Victim_empty r hfree hlru, h⟩

theorem LRUInv.step (n : Nat) (r : LRUReplacer) (op : ROp) (h : LRUInv n r) :
    ∃ r', r.step op = some r' ∧ LRUInv n r' := by
  cases op with
  | pin f => exact ⟨r.Pin f, rfl, h.pin n r f⟩
  | unpin f =>
    obtain ⟨r', hr, hi⟩ := h.unpin n r f
    exact ⟨r', by rw [LRUReplacer.step, hr], hi⟩
  | victim =>
    obtain ⟨o, r', hr, hi⟩ := h.victim n r
    exact ⟨r', by rw [LRUReplacer.step, hr, Option.map_some'], hi⟩

theorem LRUInv.runOps (n : Nat) (r r' : LRUReplacer) (ops : List ROp)
    (h : LRUInv n r) (hrun : r.runOps ops = some r') : LRUInv n r' := by
  induction ops generalizing r with
  | nil =>
    rw [LRUReplacer.runOps] at hrun
    cases hrun
    exact h
  | cons op rest ih =>
    rw [LRUReplacer.runOps] at hrun
    obtain ⟨r₁, hs, hi⟩ := h.step n r op
    rw [hs] at hrun
    exact ih r₁ hi hrun

theorem LRUInv.of_reachable (n : Nat) (r : LRUReplacer)
    (h : r.Reachable n) : LRUInv n r := by
  obtain ⟨ops, hrun⟩ := h
  exact LRUInv.runOps n _ r ops (LRUInv.ofSize n) hrun

/-! ### Claims about the replacer -/

/-- C5: in every reachable state, `Victim` pops the front of the free
FIFO if non-empty, else the front of the evictable FIFO, else reports no
victim; a returned frame is immediately pinned with count exactly 1 (and
is in neither FIFO of the new state). -/
theorem claim_C5_victim_priority (n : Nat) (r : LRUReplacer)
    (h : r.Reachable n) :
    (∀ f rest, r.free_list = f :: rest →
      r.Victim = some (some f, ⟨rest, r.lru_list, alistInsert f 1 r.pin_map⟩) ∧
      alistFind f (alistInsert f 1 r.pin_map) = some 1 ∧
      f ∉ rest ∧ f ∉ r.lru_list) ∧
    (∀ f rest, r.free_list = [] → r.lru_list = f :: rest →
      r.Victim = some (some f, ⟨[], rest, alistInsert f 1 r.pin_map⟩) ∧
      alistFind f (alistInsert f 1 r.pin_map) = some 1 ∧ f ∉ rest) ∧
    (r.free_list = [] → r.lru_list = [] → r.Victim = some (none, r)) := by
  have hinv := LRUInv.of_reachable n r h
  refine ⟨?_, ?_, fun h1 h2 => LRUReplacer.Victim_empty r h1 h2⟩
  · intro f rest hfree
    have hmem : f ∈ r.free_list := by rw [hfree]; exact List.mem_cons_self f rest
    have hnd := hinv.free_nodup
    rw [hfree, List.nodup_cons] at hnd
    exact ⟨LRUReplacer.Victim_free r f rest hfree
        ((alistFind_eq_none f r.pin_map).mpr (hinv.free_pin f hmem)),
      alistFind_insert_self f 1 r.pin_map, hnd.1, hinv.free_lru f hmem⟩
  · intro f rest hfree hlru
    have hmem : f ∈ r.lru_list := by rw [hlru]; exact List.mem_cons_self f rest
    have hnd := hinv.lru_nodup
    rw [hlru, List.nodup_cons] at hnd
    exact ⟨LRUReplacer.Victim_lru r f rest hfree hlru
        ((alistFind_eq_none f r.pin_map).mpr (hinv.lru_pin f hmem)),
      alistFind_insert_self f 1 r.pin_map, hnd.1⟩

theorem claim_C5_witness :
    LRUReplacer.Reachable 2 (LRUReplacer.ofSize 2) ∧
    (LRUReplacer.ofSize 2).free_list = 0 :: [1] ∧
    (LRUReplacer.ofSize 2).Victim =
      some (some 0, ⟨[1], [], alistInsert 0 1 []⟩) ∧
    alistFind 0 (alistInsert 0 1 ([] : List (Nat × Nat))) = some 1 := by
  have h : LRUReplacer.Reachable 2 (LRUReplacer.ofSize 2) := ⟨[], rfl⟩
  have hc := (claim_C5_victim_priority 2 _ h).1 0 [1] (by decide)
  exact ⟨h, by decide, hc.1, hc.2.1⟩

/-- The S4 scenario of the specification, as the source test
`LRUReplacerTest.SampleTest2` runs it up to the disputed point. -/
def s4Ops : List ROp :=
  [.pin 0, .pin 1, .victim, .pin 5, .victim, .unpin 1, .unpin 2,
   .victim, .victim, .victim]

/-- The prefix of the S4 scenario up to the `size()` observation. -/
def s4SizePrefix : List ROp :=
  [.pin 0, .pin 1, .victim, .pin 5, .victim, .unpin 1, .unpin 2]

/-- C6 fails on the code: after the victims 4 and 6 the evictable FIFO
still holds frames 1 and 2, so the further `victim` call returns 1, not
none.  (The source test obtains none only after additionally pinning 2
and 1.) -/
theorem claim_C6_counterexample :
    ((LRUReplacer.ofSize 7).runVictims s4Ops).map Prod.snd =
      some [some 2, some 3, some 4, some 6, some 1] ∧
    ((LRUReplacer.ofSize 7).runVictims s4Ops).map Prod.snd ≠
      some [some 2, some 3, some 4, some 6, none] := by
  constructor <;> decide

/-- C6 (amended): on a replacer of size 7, after
`pin(0); pin(1)` a victim call returns 2; after `pin(5)` a victim call
returns 3; `unpin(1); unpin(2)` leaves `size() == 4`; the next two victim
calls return 4 and 6; and a further victim call returns 1, the front of
the evictable FIFO (none would require free and evictable both empty). -/
theorem claim_C6_amended_scenario :
    ((LRUReplacer.ofSize 7).runOps s4SizePrefix).map LRUReplacer.Size = some 4 ∧
    ((LRUReplacer.ofSize 7).runVictims s4Ops).map Prod.snd =
      some [some 2, some 3, some 4, some 6, some 1] := by
  constructor <;> decide

/-- C7: in every reachable state the free, evictable and pinned sets are
pairwise disjoint, their union is `{0..pool_size-1}`, and `Size()` is
`|free| + |evictable|`. -/
theorem claim_C7_replacer_accounting (n : Nat) (r : LRUReplacer)
    (h : r.Reachable n) :
    (∀ f, ¬(f ∈ r.free_list ∧ f ∈ r.lru_list)) ∧
    (∀ f, ¬(f ∈ r.free_list ∧ f ∈ alistKeys r.pin_map)) ∧
    (∀ f, ¬(f ∈ r.lru_list ∧ f ∈ alistKeys r.pin_map)) ∧
    (∀ f, (f ∈ r.free_list ∨ f ∈ r.lru_list ∨ f ∈ alistKeys r.pin_map) ↔
      f ∈ Finset.range n) ∧
    r.Size = r.free_list.toFinset.card + r.lru_list.toFinset.card := by
  have hinv := LRUInv.of_reachable n r h
  refine ⟨fun f hc => hinv.free_lru f hc.1 hc.2,
    fun f hc => hinv.free_pin f hc.1 hc.2,
    fun f hc => hinv.lru_pin f hc.1 hc.2, fun f => ?_, ?_⟩
  · rw [Finset.mem_range]
    exact hinv.cover f
  · rw [List.toFinset_card_of_nodup hinv.free_nodup,
      List.toFinset_card_of_nodup hinv.lru_nodup]
    rfl

theorem claim_C7_witness :
    LRUReplacer.Reachable 3 ⟨[2], [0], [(1, 1)]⟩ ∧
    (∀ f, (f ∈ (⟨[2], [0], [(1, 1)]⟩ : LRUReplacer).free_list ∨
           f ∈ (⟨[2], [0], [(1, 1)]⟩ : LRUReplacer).lru_list ∨
           f ∈ alistKeys (⟨[2], [0], [(1, 1)]⟩ : LRUReplacer).pin_map) ↔
      f ∈ Finset.range 3) ∧
    (⟨[2], [0], [(1, 1)]⟩ : LRUReplacer).Size =
      (⟨[2], [0], [(1, 1)]⟩ : LRUReplacer).free_list.toFinset.card +
      (⟨[2], [0], [(1, 1)]⟩ : LRUReplacer).lru_list.toFinset.card := by
  have h : LRUReplacer.Reachable 3 ⟨[2], [0], [(1, 1)]⟩ :=
    ⟨[.pin 0, .unpin 0, .victim], by decide⟩
  have hc := claim_C7_replacer_accounting 3 _ h
  exact ⟨h, hc.2.2.2.1, hc.2.2.2.2⟩

/-! ## Disk manager (src/disk/disk_manager.hpp, src/disk/disk_page.hpp)

The db file is `HeaderPage(16B) + Page * N`.  Every `ReadDisk`/`WriteDisk`
the source issues touches either exactly the 16-byte header region or
exactly one page-sized region at offset `16 + id * page_size`, always with
the same `page_size` within a file, so the byte file is represented at
that granularity: the two header words as two naturals and the page
regions as an association list from page id to an opaque page image `α`.
A region never written reads back as zero bytes (the POSIX hole), i.e. the
zero image supplied by the caller. -/

/-- Byte size of the header page. -/
def DISK_HEADER_PAGE_SIZE : Nat := 16

/-- The in-memory `DiskHeaderPage`: two size_t words. -/
structure DiskHeaderPage where
  page_size : Nat
  page_num : Nat
  deriving DecidableEq, Repr

/-- `DiskHeaderPage::GetFileSize`. -/
def DiskHeaderPage.GetFileSize (h : DiskHeaderPage) : Nat :=
  DISK_HEADER_PAGE_SIZE + h.page_size * h.page_num

/-- The db file on disk: the persisted header words and the page regions. -/
structure DiskFile (α : Type) where
  hdr_page_size : Nat
  hdr_page_num : Nat
  pages : List (Nat × α)
  deriving DecidableEq, Repr

/-- The `DiskManager` instance state: its in-memory header page. -/
structure DiskManager where
  header_page : DiskHeaderPage
  deriving DecidableEq, Repr

/-- The `DiskManager` constructor: a missing file is created with a fresh
header `(page_size, 0)` written to it; an existing file has its header
read back (the `page_size` argument is then ignored). -/
def DiskManager.openFile {α : Type} (file : Option (DiskFile α)) (page_size : Nat) :
    DiskManager × DiskFile α :=
  match file with
  | none => (⟨⟨page_size, 0⟩⟩, ⟨page_size, 0, []⟩)
  | some f => (⟨⟨f.hdr_page_size, f.hdr_page_num⟩⟩, f)

/-- `DiskManager::GetPageNum`. -/
def DiskManager.GetPageNum (dm : DiskManager) : Nat := dm.header_page.page_num

/-- `DiskManager::GetPageSize`. -/
def DiskManager.GetPageSize (dm : DiskManager) : Nat := dm.header_page.page_size

/-- `DiskManager::WritePage`: write the page region, then raise the
in-memory `page_num_` to at least `page_id + 1` (not flushed to disk). -/
def DiskManager.WritePage {α : Type} (dm : DiskManager) (f : DiskFile α)
    (page_id : Nat) (page_data : α) : DiskManager × DiskFile α :=
  (⟨⟨dm.header_page.page_size,
      if dm.header_page.page_num > page_id then dm.header_page.page_num
      else page_id + 1⟩⟩,
   { f with pages := alistInsert page_id page_data f.pages })

/-- `DiskManager::ReadPage`: `ReadDisk` exits the process when the read
extends past the end of file recorded in the in-memory header (`none`);
otherwise the region's bytes are returned, `zero` for a hole. -/
def DiskManager.ReadPage {α : Type} (zero : α) (dm : DiskManager) (f : DiskFile α)
    (page_id : Nat) : Option α :=
  if DISK_HEADER_PAGE_SIZE + page_id * dm.header_page.page_size +
      dm.header_page.page_size > dm.header_page.GetFileSize then none
  else some
    (match alistFind page_id f.pages with
     | some d => d
     | none => zero)

/-- `DiskManager::ShutDown`: rewrite the header page and close. -/
def DiskManager.ShutDown {α : Type} (dm : DiskManager) (f : DiskFile α) : DiskFile α :=
  { f with
      hdr_page_size := dm.header_page.page_size
      hdr_page_num := dm.header_page.page_num }

/-- The S6 scenario: open a fresh file with page_size 20, write pages
0..3 with image `b`, shut down, re-open. -/
def c8Scenario (b : List Nat) : DiskManager × DiskFile (List Nat) :=
  let od := DiskManager.openFile (none : Option (DiskFile (List Nat))) 20
  let w0 := od.1.WritePage od.2 0 b
  let w1 := w0.1.WritePage w0.2 1 b
  let w2 := w1.1.WritePage w1.2 2 b
  let w3 := w2.1.WritePage w2.2 3 b
  DiskManager.openFile (some (w3.1.ShutDown w3.2)) 20

/-- C8: the S6 persistence scenario yields `page_num() == 4` after
re-opening, and `read_page(0)` returns exactly the written image; in
general every `write_page(id, buf)` raises the in-memory page count to at
least `id + 1`. -/
theorem claim_C8_disk_persistence :
    (∀ b : List Nat,
      (c8Scenario b).1.GetPageNum = 4 ∧
      DiskManager.ReadPage (List.replicate 20 0) (c8Scenario b).1 (c8Scenario b).2 0 =
        some b) ∧
    (∀ (α : Type) (dm : DiskManager) (f : DiskFile α) (id : Nat) (buf : α),
      id + 1 ≤ ((dm.WritePage f id buf).1).GetPageNum) := by
  constructor
  · intro b
    exact ⟨rfl, rfl⟩
  · intro α dm f id buf
    show id + 1 ≤
      (if dm.header_page.page_num > id then dm.header_page.page_num else id + 1)
    by_cases h : dm.header_page.page_num > id
    · rw [if_pos h]
      omega
    · rw [if_neg h]

/-! ## Buffer pool (src/buffer/buffer_pool_manager.hpp)

A frame (`disk::Page<page_size>`) is its page image — reserved bytes,
page-id word, content — plus the dirty flag.  `ReadPage` into a frame
overwrites the whole image, including the page-id word, and `WritePage`
of a frame persists the whole image.  The malloc'ed frame array's
indeterminate initial bytes are modelled as the zero image with a clear
dirty flag.  `none` results mark process exits (from the disk manager or
the replacer). -/

/-- A page image: the page-id header word plus the content bytes
(reserved bytes are always zero). -/
structure PageImage where
  page_id : Nat
  content : List Nat
  deriving DecidableEq, Repr

/-- The all-zero image of `ResetMemory` and of never-written disk
regions. -/
def zeroImage (content_size : Nat) : PageImage :=
  ⟨0, List.replicate content_size 0⟩

/-- A buffer-pool frame: a page image plus the dirty flag. -/
structure Frame where
  image : PageImage
  is_dirty : Bool
  deriving DecidableEq, Repr

/-- `BufferPoolManager<page_size>` state, together with the disk manager
and file it drives. -/
structure BufferPoolManager where
  page_size : Nat
  pool_size : Nat
  pages : List Frame
  replacer : LRUReplacer
  disk_manager : DiskManager
  file : DiskFile PageImage
  next_page_id : Nat
  pages_map : List (Nat × Nat)
  deriving DecidableEq, Repr

/-- The `BufferPoolManager` constructor: `next_page_id_` starts at the
disk manager's current page count; all frames free. -/
def BufferPoolManager.new (page_size pool_size : Nat) (dm : DiskManager)
    (f : DiskFile PageImage) : BufferPoolManager :=
  ⟨page_size, pool_size,
    List.replicate pool_size ⟨zeroImage (page_size - 8), false⟩,
    LRUReplacer.ofSize pool_size, dm, f, dm.GetPageNum, []⟩

/-- `BufferPoolManager::GetFreePage`: ask the replacer for a victim
(failure: inner `none` with the pool unchanged); write the victim frame
back if dirty; drop its old residency entry; reset the frame bytes (the
dirty flag is not touched by `ResetMemory`). -/
def BufferPoolManager.GetFreePage (bp : BufferPoolManager) :
    Option (Option Nat × BufferPoolManager) :=
  match bp.replacer.Victim with
  | none => none
  | some (none, _) => some (none, bp)
  | some (some fr, rep') =>
    match bp.pages.get? fr with
    | none => none
    | some page =>
      let wb :=
        if page.is_dirty then
          bp.disk_manager.WritePage bp.file page.image.page_id page.image
        else (bp.disk_manager, bp.file)
      some (some fr,
        { bp with
            replacer := rep'
            disk_manager := wb.1
            file := wb.2
            pages_map := alistErase page.image.page_id bp.pages_map
            pages := bp.pages.set fr ⟨zeroImage (bp.page_size - 8), page.is_dirty⟩ })

/-- `BufferPoolManager::NewPage`: always consumes a page id
(`AllocatePageID` runs first); on success stamps the frame with the new
id, marks it dirty and records residency. -/
def BufferPoolManager.NewPage (bp : BufferPoolManager) :
    Option (Option (Nat × Frame) × BufferPoolManager) :=
  match ({ bp with next_page_id := bp.next_page_id + 1 } : BufferPoolManager).GetFreePage with
  | none => none
  | some (none, bp1) => some (none, bp1)
  | some (some fr, bp1) =>
    match bp1.pages.get? fr with
    | none => none
    | some page =>
      some (some (fr, ⟨⟨bp.next_page_id, page.image.content⟩, true⟩),
        { bp1 with
            pages := bp1.pages.set fr ⟨⟨bp.next_page_id, page.image.content⟩, true⟩
            pages_map := alistInsert bp.next_page_id fr bp1.pages_map })

/-- `BufferPoolManager::FetchPage`: a resident page is re-pinned and
returned; otherwise a frame is freed, the page read from disk (the disk
manager exits on a read past the recorded end of file: outer `none`), the
dirty flag cleared and residency recorded. -/
def BufferPoolManager.FetchPage (bp : BufferPoolManager) (page_id : Nat) :
    Option (Option (Nat × Frame) × BufferPoolManager) :=
  match alistFind page_id bp.pages_map with
  | some fr =>
    match bp.pages.get? fr with
    | none => none
    | some page =>
      some (some (fr, page), { bp with replacer := bp.replacer.Pin fr })
  | none =>
    match bp.GetFreePage with
    | none => none
    | some (none, bp1) => some (none, bp1)
    | some (some fr, bp1) =>
      match bp1.disk_manager.ReadPage (zeroImage (bp1.page_size - 8)) bp1.file page_id with
      | none => none
      | some img =>
        let page' : Frame := ⟨img, false⟩
        some (some (fr, page'),
          { bp1 with
              pages := bp1.pages.set fr page'
              pages_map := alistInsert page_id fr bp1.pages_map })

/-- `BufferPoolManager::UnpinPage`. -/
def BufferPoolManager.UnpinPage (bp : BufferPoolManager) (page_id : Nat)
    (is_dirty : Bool) : Option (Bool × BufferPoolManager) :=
  match alistFind page_id bp.pages_map with
  | none => some (false, bp)
  | some fr =>
    match bp.pages.get? fr with
    | none => none
    | some page =>
      let page' := if is_dirty then { page with is_dirty := is_dirty } else page
      match bp.replacer.Unpin fr with
      | none => none
      | some rep' =>
        some (true, { bp with pages := bp.pages.set fr page', replacer := rep' })

/-- One external call to the buffer pool. -/
inductive BPOp where
  | newp : BPOp
  | unpin : Nat → Bool → BPOp
  | fetch : Nat → BPOp
  deriving DecidableEq, Repr

/-- Effect of one call on the pool state. -/
def BufferPoolManager.stepOp (bp : BufferPoolManager) : BPOp → Option BufferPoolManager
  | .newp => bp.NewPage.map Prod.snd
  | .unpin pid d => (bp.UnpinPage pid d).map Prod.snd
  | .fetch pid => (bp.FetchPage pid).map Prod.snd

/-- Run a sequence of calls. -/
def BufferPoolManager.runBP (bp : BufferPoolManager) : List BPOp → Option BufferPoolManager
  | [] => some bp
  | op :: rest =>
    match bp.stepOp op with
    | none => none
    | some bp' => bp'.runBP rest

/-- Run a sequence of calls, collecting the page id (or failure) every
`NewPage` call reports. -/
def BufferPoolManager.runNewPages (bp : BufferPoolManager) :
    List BPOp → Option (BufferPoolManager × List (Option Nat))
  | [] => some (bp, [])
  | .newp :: rest =>
    match bp.NewPage with
    | none => none
    | some (res, bp') =>
      match bp'.runNewPages rest with
      | none => none
      | some (bf, xs) => some (bf, (res.map fun rf => rf.2.image.page_id) :: xs)
  | op :: rest =>
    match bp.stepOp op with
    | none => none
    | some bp' => bp'.runNewPages rest

/-! ### Claims about the buffer pool -/

/-- `GetFreePage` never touches the next-page-id counter. -/
theorem BufferPoolManager.GetFreePage_next_page_id (bp : BufferPoolManager)
    (res : Option Nat) (bp' : BufferPoolManager)
    (h : bp.GetFreePage = some (res, bp')) : bp'.next_page_id = bp.next_page_id := by
  unfold BufferPoolManager.GetFreePage at h
  cases hv : bp.replacer.Victim with
  | none =>
    rw [hv] at h
    exact Option.noConfusion h
  | some pr =>
    obtain ⟨o, rep'⟩ := pr
    cases o with
    | none =>
      rw [hv] at h
      cases h
      rfl
    | some fr =>
      rw [hv] at h
      cases hg : bp.pages.get? fr with
      | none =>
        simp only [hg] at h
        exact Option.noConfusion h
      | some page =>
        simp only [hg] at h
        cases h
        rfl

/-- A buffer pool over a fresh database file with page_size 16 and a
single frame. -/
def bpC9 : BufferPoolManager :=
  BufferPoolManager.new 16 1
    (DiskManager.openFile (none : Option (DiskFile PageImage)) 16).1
    (DiskManager.openFile (none : Option (DiskFile PageImage)) 16).2

/-- NewPage id 0; NewPage fails (frame pinned) consuming id 1; unpin 0
dirty; NewPage id 2; unpin 2 dirty.  Leaves page 2 resident and dirty,
the disk page count at 1, and page id 1 never created. -/
def c9Trace : List BPOp := [.newp, .newp, .unpin 0 true, .newp, .unpin 2 true]

/-- Classification of a `FetchPage` result: 0 = the process exited,
1 = null was returned, 2 = a page was returned. -/
def fetchOutcome (r : Option (Option (Nat × Frame) × BufferPoolManager)) : Nat :=
  match r with
  | none => 0
  | some (none, _) => 1
  | some (some _, _) => 2

/-- C9 fails on the code.  In the state `c9Trace` reaches from `bpC9`:
page 1 is not resident, `1 >= page_num` (the read would start past the
recorded end of file at call time), and a frame can be victimised — yet
`FetchPage 1` returns a page (outcome 2): the dirty writeback of resident
page 2 during eviction raises `page_num` to 3 first, so `ReadDisk`'s
bound check passes and the process does not terminate. -/
theorem claim_C9_counterexample :
    (bpC9.runBP c9Trace).map (fun bp =>
      (alistFind 1 bp.pages_map, decide (bp.disk_manager.GetPageNum ≤ 1),
        bp.replacer.Size, fetchOutcome (bp.FetchPage 1))) =
      some (none, true, 1, 2) := by decide

/-- C9 (amended): if `FetchPage(page_id)` misses the pool, a frame can be
victimised, and `page_id` still lies at or past the recorded end of file
after the eviction's dirty writeback, then the call does not return null:
the disk manager detects the out-of-range read and terminates the
process. -/
theorem claim_C9_amended_fetch_past_eof_aborts (bp : BufferPoolManager)
    (pid : Nat) {fr : Nat} {bp1 : BufferPoolManager}
    (hnr : alistFind pid bp.pages_map = none)
    (hfree : bp.GetFreePage = some (some fr, bp1))
    (hps : 0 < bp1.disk_manager.header_page.page_size)
    (hpast : bp1.disk_manager.GetPageNum ≤ pid) :
    bp.FetchPage pid = none := by
  have hread : bp1.disk_manager.ReadPage (zeroImage (bp1.page_size - 8))
      bp1.file pid = none := by
    unfold DiskManager.ReadPage
    rw [if_pos]
    unfold DiskManager.GetPageNum at hpast
    unfold DiskHeaderPage.GetFileSize DISK_HEADER_PAGE_SIZE
    have h1 : bp1.disk_manager.header_page.page_size *
        bp1.disk_manager.header_page.page_num ≤
        bp1.disk_manager.header_page.page_size * pid :=
      Nat.mul_le_mul_left _ hpast
    have h2 : pid * bp1.disk_manager.header_page.page_size =
        bp1.disk_manager.header_page.page_size * pid := Nat.mul_comm _ _
    omega
  unfold BufferPoolManager.FetchPage
  rw [hnr, hfree]
  simp only [hread]

theorem claim_C9_amended_witness :
    alistFind 5 ((bpC9.runBP [.newp, .unpin 0 true]).getD bpC9).pages_map = none ∧
    ((bpC9.runBP [.newp, .unpin 0 true]).getD bpC9).FetchPage 5 = none := by
  refine ⟨by decide, ?_⟩
  exact claim_C9_amended_fetch_past_eof_aborts _ 5 (by decide) rfl
    (by decide) (by decide)

/-- C10: `AllocatePageID` runs before the frame search, so every
`NewPage` call — the failing ones included — advances the next-page-id
counter by one and the id a failed call consumed is never handed out
again; concretely, over a single-frame pool the successfully created
pages get ids 0 and 2 while the failed middle call consumes id 1, and the
counter ends at 3. -/
theorem claim_C10_page_id_consumed_on_failure :
    (∀ bp : BufferPoolManager,
      match bp.NewPage with
      | none => True
      | some (_, bp') => bp'.next_page_id = bp.next_page_id + 1) ∧
    (bpC9.runNewPages [.newp, .newp, .unpin 0 true, .newp]).map
        (fun x => (x.2, x.1.next_page_id)) = some ([some 0, none, some 2], 3) := by
  constructor
  · intro bp
    cases hnp : bp.NewPage with
    | none => trivial
    | some pr =>
      obtain ⟨res, bp'⟩ := pr
      show bp'.next_page_id = bp.next_page_id + 1
      unfold BufferPoolManager.NewPage at hnp
      cases hv : ({ bp with next_page_id := bp.next_page_id + 1 } :
          BufferPoolManager).GetFreePage with
      | none =>
        rw [hv] at hnp
        exact Option.noConfusion hnp
      | some pr2 =>
        obtain ⟨o, bp1⟩ := pr2
        have hnext : bp1.next_page_id = bp.next_page_id + 1 :=
          BufferPoolManager.GetFreePage_next_page_id _ o bp1 hv
        cases o with
        | none =>
          rw [hv] at hnp
          cases hnp
          exact hnext
        | some fr =>
          rw [hv] at hnp
          cases hg : bp1.pages.get? fr with
          | none =>
            simp only [hg] at hnp
            exact Option.noConfusion hnp
          | some page =>
            simp only [hg] at hnp
            cases hnp
            exact hnext
  · decide

end DSBUS
